import Mathlib

/-!
Verification development for the video-to-learning content-generation
pipeline: a shallow embedding of the response-parsing helpers
(`src/lib/textGeneration.ts`), the two-stage pipeline and its state
machine (`src/video-to-learning-app/components/ContentContainer.tsx`),
and the per-run session control of `src/video-to-learning-app/App.tsx`.

JavaScript strings are modelled as `List Char`; JS string methods
(`indexOf`, `lastIndexOf`, `substring`, `trim`) are embedded with their
ECMAScript clamping semantics.  `JSON.parse` is embedded as an
executable parser of the JSON grammar (numbers are kept as their source
literals, which no result here inspects numerically).
-/

/-- The character x7b, written via its code so it never pairs with a
closing brace in source text. -/
def lbrace : Char := Char.ofNat 123

/-- The character x7d. -/
def rbrace : Char := Char.ofNat 125

/-- Does `pat` occur in `s` starting at position `i` (full fit required,
as for JS `indexOf` matching)? -/
def matchesAt (s pat : List Char) (i : Nat) : Bool :=
  decide ((s.drop i).take pat.length = pat)

/-- Upward scan for the first match position, `i, i+1, ..., i+fuel-1`. -/
def firstMatchAux (s pat : List Char) : Nat → Nat → Int
  | _, 0 => -1
  | i, fuel + 1 =>
    if matchesAt s pat i then (i : Int) else firstMatchAux s pat (i + 1) fuel

/-- JS `String.prototype.indexOf`: first index where `pat` occurs in
`s`, or `-1`.  The empty pattern matches at index 0. -/
def jsIndexOf (s pat : List Char) : Int :=
  firstMatchAux s pat 0 (s.length + 1)

/-- Downward scan for the last match position among `0..i`. -/
def lastMatchAux (s pat : List Char) : Nat → Int
  | 0 => if matchesAt s pat 0 then 0 else -1
  | i + 1 => if matchesAt s pat (i + 1) then ((i : Int) + 1) else lastMatchAux s pat i

/-- JS `String.prototype.lastIndexOf`: last index where `pat` occurs in
`s`, or `-1`.  The empty pattern matches at `s.length`. -/
def jsLastIndexOf (s pat : List Char) : Int :=
  lastMatchAux s pat s.length

/-- JS `String.prototype.substring(a, b)`: both arguments are clamped
into `[0, length]` and swapped when the clamped start exceeds the
clamped end. -/
def jsSubstring (s : List Char) (a b : Int) : List Char :=
  let len : Int := s.length
  let fa := min (max a 0) len
  let fb := min (max b 0) len
  let lo := min fa fb
  let hi := max fa fb
  (s.take hi.toNat).drop lo.toNat

/-- JS `String.prototype.trim` whitespace class (the common members;
ECMAScript also strips a few rarer Unicode space separators). -/
def isJsWs (c : Char) : Bool :=
  c = ' ' || c = '\t' || c = '\n' || c = '\r' ||
  c = Char.ofNat 11 || c = Char.ofNat 12 || c = Char.ofNat 160 ||
  c = Char.ofNat 8232 || c = Char.ofNat 8233 || c = Char.ofNat 65279

/-- JS `String.prototype.trim`: strip leading then trailing whitespace. -/
def jsTrim (s : List Char) : List Char :=
  (((s.dropWhile isJsWs).reverse.dropWhile isJsWs)).reverse

/-- JSON values as produced by `JSON.parse`.  Numbers are kept as their
source literal (no float interpretation happens anywhere downstream). -/
inductive Json where
  | jnull : Json
  | jbool : Bool → Json
  | jnum : List Char → Json
  | jstr : List Char → Json
  | jarr : List Json → Json
  | jobj : List (List Char × Json) → Json

/-- JSON insignificant whitespace (space, tab, line feed, carriage return). -/
def isJsonWs (c : Char) : Bool :=
  c = ' ' || c = '\t' || c = '\n' || c = '\r'

/-- Skip JSON insignificant whitespace. -/
def skipWs : List Char → List Char
  | [] => []
  | c :: cs => if isJsonWs c then skipWs cs else c :: cs

/-- ASCII decimal digit test. -/
def isDigitCh (c : Char) : Bool := '0' ≤ c && c ≤ '9'

/-- Split a maximal run of digits off the front. -/
def takeDigits : List Char → (List Char × List Char)
  | [] => ([], [])
  | c :: cs =>
    if isDigitCh c then
      let p := takeDigits cs
      (c :: p.1, p.2)
    else ([], c :: cs)

/-- Fraction part of a JSON number (optional; a dot demands digits). -/
def numFracPart : List Char → Option (List Char × List Char)
  | c :: cs =>
    if c = '.' then
      match takeDigits cs with
      | ([], _) => none
      | (d, r) => some ('.' :: d, r)
    else some ([], c :: cs)
  | [] => some ([], [])

/-- Exponent part of a JSON number (optional; e/E, optional sign, digits). -/
def numExpPart : List Char → Option (List Char × List Char)
  | c :: cs =>
    if c = 'e' || c = 'E' then
      let sgn : List Char × List Char :=
        match cs with
        | c2 :: cs2 => if c2 = '+' || c2 = '-' then ([c2], cs2) else ([], cs)
        | [] => ([], [])
      match takeDigits sgn.2 with
      | ([], _) => none
      | (d, r) => some (c :: (sgn.1 ++ d), r)
    else some ([], c :: cs)
  | [] => some ([], [])

/-- Integer part of a JSON number after the optional sign: `0` or a
nonzero digit followed by digits. -/
def numIntPart : List Char → Option (List Char × List Char)
  | c :: cs =>
    if c = '0' then some ([c], cs)
    else if isDigitCh c then
      let p := takeDigits cs
      some (c :: p.1, p.2)
    else none
  | [] => none

/-- Parse a JSON number literal from the front; returns the consumed
literal and the rest. -/
def parseNumber (s : List Char) : Option (List Char × List Char) :=
  let sgn : List Char × List Char :=
    match s with
    | c :: cs => if c = '-' then ([c], cs) else ([], s)
    | [] => ([], [])
  match numIntPart sgn.2 with
  | none => none
  | some (ip, r1) =>
    match numFracPart r1 with
    | none => none
    | some (fp, r2) =>
      match numExpPart r2 with
      | none => none
      | some (ep, r3) => some (sgn.1 ++ ip ++ fp ++ ep, r3)

/-- Value of an ASCII hex digit. -/
def hexVal (c : Char) : Option Nat :=
  if '0' ≤ c ∧ c ≤ '9' then some (c.toNat - 48)
  else if 'a' ≤ c ∧ c ≤ 'f' then some (c.toNat - 87)
  else if 'A' ≤ c ∧ c ≤ 'F' then some (c.toNat - 55)
  else none

/-- Decode the body of a JSON string after the opening quote, up to the
closing quote; handles the escape forms of the JSON grammar. -/
def parseStringBody (fuel : Nat) (s : List Char) : Option (List Char × List Char) :=
  match fuel, s with
  | 0, _ => none
  | _, [] => none
  | f + 1, c :: cs =>
    if c = '"' then some ([], cs)
    else if c = '\\' then
      match cs with
      | [] => none
      | e :: cs2 =>
        if e = '"' ∨ e = '\\' ∨ e = '/' then
          (parseStringBody f cs2).map (fun p => (e :: p.1, p.2))
        else if e = 'b' then (parseStringBody f cs2).map (fun p => (Char.ofNat 8 :: p.1, p.2))
        else if e = 'f' then (parseStringBody f cs2).map (fun p => (Char.ofNat 12 :: p.1, p.2))
        else if e = 'n' then (parseStringBody f cs2).map (fun p => ('\n' :: p.1, p.2))
        else if e = 'r' then (parseStringBody f cs2).map (fun p => ('\r' :: p.1, p.2))
        else if e = 't' then (parseStringBody f cs2).map (fun p => ('\t' :: p.1, p.2))
        else if e = 'u' then
          match cs2.take 4 with
          | [h1, h2, h3, h4] =>
            match hexVal h1, hexVal h2, hexVal h3, hexVal h4 with
            | some v1, some v2, some v3, some v4 =>
              (parseStringBody f (cs2.drop 4)).map
                (fun p => (Char.ofNat (((v1 * 16 + v2) * 16 + v3) * 16 + v4) :: p.1, p.2))
            | _, _, _, _ => none
          | _ => none
        else none
    else if c.toNat < 32 then none
    else (parseStringBody f cs).map (fun p => (c :: p.1, p.2))

mutual

/-- Parse one JSON value from the front of `s` (no leading whitespace). -/
def parseVal : Nat → List Char → Option (Json × List Char)
  | 0, _ => none
  | f + 1, s =>
    match s with
    | [] => none
    | c :: cs =>
      if c = 'n' then
        if cs.take 3 = ['u', 'l', 'l'] then some (.jnull, cs.drop 3) else none
      else if c = 't' then
        if cs.take 3 = ['r', 'u', 'e'] then some (.jbool true, cs.drop 3) else none
      else if c = 'f' then
        if cs.take 4 = ['a', 'l', 's', 'e'] then some (.jbool false, cs.drop 4) else none
      else if c = '"' then
        (parseStringBody f cs).map (fun p => (.jstr p.1, p.2))
      else if c = lbrace then parseObjStart f (skipWs cs)
      else if c = '[' then parseArrStart f (skipWs cs)
      else
        (parseNumber (c :: cs)).map (fun p => (.jnum p.1, p.2))

/-- Parse an array after `[` and whitespace: empty, or first element
then the comma loop. -/
def parseArrStart : Nat → List Char → Option (Json × List Char)
  | 0, _ => none
  | f + 1, s =>
    match s with
    | [] => none
    | c :: cs =>
      if c = ']' then some (.jarr [], cs)
      else
        match parseVal f (c :: cs) with
        | none => none
        | some (v, r) => parseArrRest f [v] (skipWs r)

/-- Comma loop of an array; `acc` holds elements in reverse. -/
def parseArrRest : Nat → List Json → List Char → Option (Json × List Char)
  | 0, _, _ => none
  | f + 1, acc, s =>
    match s with
    | [] => none
    | c :: cs =>
      if c = ']' then some (.jarr acc.reverse, cs)
      else if c = ',' then
        match parseVal f (skipWs cs) with
        | none => none
        | some (v, r) => parseArrRest f (v :: acc) (skipWs r)
      else none

/-- Parse an object after the opening brace and whitespace: empty, or
first member then the comma loop. -/
def parseObjStart : Nat → List Char → Option (Json × List Char)
  | 0, _ => none
  | f + 1, s =>
    match s with
    | [] => none
    | c :: cs =>
      if c = rbrace then some (.jobj [], cs)
      else
        match parseMember f (c :: cs) with
        | none => none
        | some (kv, r) => parseObjRest f [kv] (skipWs r)

/-- One `"key" : value` member (no leading whitespace before the key). -/
def parseMember : Nat → List Char → Option ((List Char × Json) × List Char)
  | 0, _ => none
  | f + 1, s =>
    match s with
    | [] => none
    | c :: cs =>
      if c = '"' then
        match parseStringBody f cs with
        | none => none
        | some (k, r1) =>
          match skipWs r1 with
          | [] => none
          | c2 :: r2 =>
            if c2 = ':' then
              match parseVal f (skipWs r2) with
              | none => none
              | some (v, r3) => some ((k, v), r3)
            else none
      else none

/-- Comma loop of an object; `acc` holds members in reverse. -/
def parseObjRest : Nat → List (List Char × Json) → List Char → Option (Json × List Char)
  | 0, _, _ => none
  | f + 1, acc, s =>
    match s with
    | [] => none
    | c :: cs =>
      if c = rbrace then some (.jobj acc.reverse, cs)
      else if c = ',' then
        match parseMember f (skipWs cs) with
        | none => none
        | some (kv, r) => parseObjRest f (kv :: acc) (skipWs r)
      else none

end

/-- `JSON.parse`: a whole text is one value surrounded by insignificant
whitespace; `none` models the thrown `SyntaxError`. -/
def jsonParse (s : List Char) : Option Json :=
  match parseVal (s.length + 1) (skipWs s) with
  | none => none
  | some (v, r) => if skipWs r = [] then some v else none

/-- The source text of `parseJSON` in `src/lib/parse.ts`:
`JSON.parse(str.substring(str.indexOf(lbrace), str.lastIndexOf(rbrace) + 1))`,
with `none` standing for the thrown parse error. -/
def parseJSON (str : List Char) : Option Json :=
  let start := jsIndexOf str [lbrace]
  let stop := jsLastIndexOf str [rbrace] + 1
  jsonParse (jsSubstring str start stop)

/-- The literal start marker used by `parseHTML`. -/
def docTypeTag : List Char := "<!DOCTYPE html>".toList

/-- The source text of `parseHTML` in `src/lib/parse.ts`: substring from
`str.indexOf(docTypeTag)` to `str.lastIndexOf(closer)`.  The `opener`
argument is accepted but never used, exactly as in the source. -/
def parseHTML (str opener closer : List Char) : List Char :=
  let start := jsIndexOf str docTypeTag
  let stop := jsLastIndexOf str closer
  jsSubstring str start stop

/-- JS property read on a parsed JSON value: for objects, the last
member with the key wins (as `JSON.parse` keeps the last duplicate);
`none` models `undefined`. -/
def jsonGet (j : Json) (k : List Char) : Option Json :=
  match j with
  | .jobj fields => (fields.reverse.find? (fun p => p.1 = k)).map (fun p => p.2)
  | _ => none

/-- Finish reason of a candidate in a backend response
(`FinishReason` in the genai client; a string enum). -/
inductive FinishReason where
  | STOP : FinishReason
  | SAFETY : FinishReason
  | OTHER : List Char → FinishReason
deriving DecidableEq, Repr

/-- String rendering of a finish reason, as interpolated into error
messages by `generateText`. -/
def FinishReason.render : FinishReason → List Char
  | .STOP => "STOP".toList
  | .SAFETY => "SAFETY".toList
  | .OTHER s => s

/-- One candidate completion of a backend response; only the finish
reason is inspected by `generateText`. -/
structure Candidate where
  finishReason : Option FinishReason
deriving DecidableEq, Repr

/-- The shape of a backend response as consumed by `generateText`:
an optional prompt block reason (`promptFeedback?.blockReason`), an
optional candidate list (`response.candidates` may be absent), and the
rendered text (`response.text`). -/
structure GenResponse where
  blockReason : Option (List Char)
  candidates : Option (List Candidate)
  text : List Char
deriving DecidableEq, Repr

/-- Error message of the missing-credential check. -/
def missingKeyMsg : List Char := "Gemini API key is missing or empty".toList

/-- Error message for a blocked prompt, with the reported reason
interpolated. -/
def promptBlockedMsg (r : List Char) : List Char :=
  "Content generation failed: Prompt blocked (reason: ".toList ++ r ++ ")".toList

/-- Error message when no candidates come back. -/
def noCandidatesMsg : List Char :=
  "Content generation failed: No candidates returned.".toList

/-- Error message for a safety-blocked response. -/
def safetyBlockedMsg : List Char :=
  "Content generation failed: Response blocked due to safety settings.".toList

/-- Error message for any other non-STOP finish reason, with the reason
interpolated. -/
def stoppedMsg (fr : FinishReason) : List Char :=
  "Content generation failed: Stopped due to ".toList ++ fr.render ++ ".".toList

/-- `generateText` of `src/lib/textGeneration.ts`, as a function of the
credential's presence and of the response the backend returns for the
issued request; `.error` models a thrown `Error` carrying its message. -/
def generateText (apiKeyPresent : Bool) (resp : GenResponse) :
    Except (List Char) (List Char) :=
  if apiKeyPresent = false then .error missingKeyMsg
  else
    match resp.blockReason with
    | some r => .error (promptBlockedMsg r)
    | none =>
      match resp.candidates with
      | none => .error noCandidatesMsg
      | some [] => .error noCandidatesMsg
      | some (c0 :: _) =>
        match c0.finishReason with
        | some fr =>
          if fr ≠ FinishReason.STOP then
            if fr = FinishReason.SAFETY then .error safetyBlockedMsg
            else .error (stoppedMsg fr)
          else .ok resp.text
        | none => .ok resp.text

/-- Coercion of a JSON field value to the string the pipeline splices
into the spec: the string itself for JSON strings, and JS `toString`
renderings for the other shapes (a missing field reads as `undefined`). -/
def fieldText (v : Option Json) : List Char :=
  match v with
  | none => "undefined".toList
  | some (.jstr s) => s
  | some (.jnum l) => l
  | some (.jbool true) => "true".toList
  | some (.jbool false) => "false".toList
  | some .jnull => "null".toList
  | some (.jarr _) => "[array]".toList
  | some (.jobj _) => "[object Object]".toList

/-- Error message standing for the `SyntaxError` thrown by `JSON.parse`
on malformed input. -/
def jsonSyntaxErrorMsg : List Char := "Unexpected token in JSON".toList

/-- `generateSpecFromVideo` of `ContentContainer.tsx`: run stage one's
backend call, extract the JSON payload, read its `spec` field, append
the spec addendum.  `resp` is the response the backend returns for the
stage-one request; `addendum` is the `SPEC_ADDENDUM` constant (its text
lives in `lib/prompts.ts`, outside the embedded sources, so it is kept
a parameter). -/
def generateSpecFromVideo (apiKeyPresent : Bool) (resp : GenResponse)
    (addendum : List Char) : Except (List Char) (List Char) :=
  match generateText apiKeyPresent resp with
  | .error e => .error e
  | .ok text =>
    match parseJSON text with
    | none => .error jsonSyntaxErrorMsg
    | some j => .ok (fieldText (jsonGet j "spec".toList) ++ addendum)

/-- `generateCodeFromSpec` of `ContentContainer.tsx`: run stage two's
backend call with the spec as prompt and extract the HTML document.
`opener`/`closer` are the `CODE_REGION_OPENER`/`CODE_REGION_CLOSER`
constants, kept as parameters for the same reason as the addendum. -/
def generateCodeFromSpec (apiKeyPresent : Bool) (resp : GenResponse)
    (opener closer : List Char) : Except (List Char) (List Char) :=
  match generateText apiKeyPresent resp with
  | .error e => .error e
  | .ok text => .ok (parseHTML text opener closer)

/-- The `LoadingState` union of `ContentContainer.tsx`. -/
inductive LoadingState where
  | loadingSpec : LoadingState
  | loadingCode : LoadingState
  | ready : LoadingState
  | err : LoadingState
deriving DecidableEq, Repr

/-- The pipeline-visible state of one `ContentContainer` run: the
`spec`, `code`, `loadingState` and `error` React state cells. -/
structure RunState where
  spec : List Char
  code : List Char
  loadingState : LoadingState
  errorMsg : Option (List Char)
deriving DecidableEq, Repr

/-- Initial state of a mounted `ContentContainer`: `spec`/`code` from
the pre-seeded props (empty when absent), `loadingState` is `ready`
exactly when both pre-seeded strings are truthy (non-empty), `error`
starts `null`. -/
def initialState (preSeededSpec preSeededCode : List Char) : RunState :=
  { spec := preSeededSpec
    code := preSeededCode
    loadingState :=
      if preSeededSpec ≠ [] ∧ preSeededCode ≠ [] then .ready else .loadingSpec
    errorMsg := none }

/-- The `generateContent` effect of `ContentContainer.tsx`, run once per
mount: pre-seeded content short-circuits to `ready`; otherwise the
state is reset and the two stages run in sequence, any failure landing
in the `error` state while keeping whatever stage one had committed.
`resp1` is the backend's stage-one response; `resp2` maps the stage-two
prompt (the generated spec) to the backend's stage-two response. -/
def generateContent (preSeededSpec preSeededCode : List Char)
    (apiKeyPresent : Bool) (resp1 : GenResponse)
    (resp2 : List Char → GenResponse)
    (addendum opener closer : List Char) (st : RunState) : RunState :=
  if preSeededSpec ≠ [] ∧ preSeededCode ≠ [] then
    { st with spec := preSeededSpec, code := preSeededCode, loadingState := .ready }
  else
    let st1 : RunState :=
      { spec := [], code := [], loadingState := .loadingSpec, errorMsg := none }
    match generateSpecFromVideo apiKeyPresent resp1 addendum with
    | .error e => { st1 with errorMsg := some e, loadingState := .err }
    | .ok sp =>
      let st2 := { st1 with spec := sp, loadingState := .loadingCode }
      match generateCodeFromSpec apiKeyPresent (resp2 sp) opener closer with
      | .error e => { st2 with errorMsg := some e, loadingState := .err }
      | .ok cd => { st2 with code := cd, loadingState := .ready }

/-- One full fresh mount of `ContentContainer`: the initial state
followed by the `generateContent` effect. -/
def runPipeline (preSeededSpec preSeededCode : List Char)
    (apiKeyPresent : Bool) (resp1 : GenResponse)
    (resp2 : List Char → GenResponse)
    (addendum opener closer : List Char) : RunState :=
  generateContent preSeededSpec preSeededCode apiKeyPresent resp1 resp2
    addendum opener closer (initialState preSeededSpec preSeededCode)

/-- `handleSpecSave` of `ContentContainer.tsx`.  Returns the state
after the handler and whether a stage-two backend call was issued.  A
trimmed edit equal to the stored spec closes the editor and does
nothing else; otherwise the spec is replaced by the trimmed edit before
the call, and a failing call lands in the `error` state with the edited
spec retained. -/
def handleSpecSave (st : RunState) (editedSpec : List Char)
    (apiKeyPresent : Bool) (resp2 : List Char → GenResponse)
    (opener closer : List Char) : RunState × Bool :=
  let trimmedEditedSpec := jsTrim editedSpec
  if trimmedEditedSpec = st.spec then (st, false)
  else
    let st1 := { st with loadingState := LoadingState.loadingCode,
                         errorMsg := none, spec := trimmedEditedSpec }
    match generateCodeFromSpec apiKeyPresent (resp2 trimmedEditedSpec) opener closer with
    | .ok cd => ({ st1 with code := cd, loadingState := .ready }, true)
    | .error e => ({ st1 with errorMsg := some e, loadingState := .err }, true)

/-- Modelled from the spec: the run-discarding behaviour of `App.tsx`
is implemented by React remounting `ContentContainer` through the
`key` prop tied to `reloadCounter` (`proceedWithVideo` increments the
counter; a remount discards the old instance, whose pending state
updates are dropped by the React runtime, which is not part of the
embedded sources).  The spec's design note makes this precise as an
epoch token per run: every asynchronous completion carries the token of
the run that started it, and a completion whose token differs from the
current one is discarded. -/
structure Session where
  reloadCounter : Nat
  videoUrl : List Char
  visible : RunState
deriving DecidableEq, Repr

/-- Events of the session model: `newBasis` is a basis reassignment
(`proceedWithVideo` / example selection), `runCommit` is the eventual
completion of the run started at `token` trying to commit `result` to
the visible state. -/
inductive SessionEvent where
  | newBasis : List Char → SessionEvent
  | runCommit : Nat → RunState → SessionEvent
deriving DecidableEq, Repr

/-- Modelled from the spec: one step of the session machine.  A basis
reassignment bumps the counter (new run identity) and mounts a fresh
run; a completion commits only when its token is the current counter. -/
def sessionStep (s : Session) : SessionEvent → Session
  | .newBasis url =>
    { s with videoUrl := url, reloadCounter := s.reloadCounter + 1,
             visible := initialState [] [] }
  | .runCommit token result =>
    if token = s.reloadCounter then { s with visible := result } else s

/-- `pat` matches at position 0 of `pat ++ rest`. -/
theorem matchesAt_zero_append (pat rest : List Char) :
    matchesAt (pat ++ rest) pat 0 = true := by
  simp [matchesAt, List.take_left]

/-- A scan that matches at its starting position returns it. -/
theorem firstMatchAux_of_match (s pat : List Char) (i fuel : Nat)
    (h : matchesAt s pat i = true) :
    firstMatchAux s pat i (fuel + 1) = (i : Int) := by
  simp [firstMatchAux, h]

/-- `indexOf` finds position 0 when the pattern is a front segment. -/
theorem jsIndexOf_append_front (pat rest : List Char) :
    jsIndexOf (pat ++ rest) pat = 0 := by
  have h := matchesAt_zero_append pat rest
  simp [jsIndexOf, firstMatchAux, h]

/-- Every result of the upward scan is `-1` or an actual match position
at or after the start. -/
theorem firstMatchAux_cases (s pat : List Char) :
    ∀ fuel i : Nat, firstMatchAux s pat i fuel = -1 ∨
      ∃ k : Nat, firstMatchAux s pat i fuel = (k : Int) ∧ i ≤ k ∧
        matchesAt s pat k = true := by
  intro fuel
  induction fuel with
  | zero => intro i; left; rfl
  | succ f ih =>
    intro i
    by_cases h : matchesAt s pat i = true
    · right
      exact ⟨i, by simp [firstMatchAux, h], Nat.le_refl i, h⟩
    · have h' : matchesAt s pat i = false := by
        cases hb : matchesAt s pat i with
        | true => exact absurd hb h
        | false => rfl
      rcases ih (i + 1) with hneg | ⟨k, hk, hik, hm⟩
      · left; simpa [firstMatchAux, h'] using hneg
      · right
        exact ⟨k, by simpa [firstMatchAux, h'] using hk, by omega, hm⟩

/-- Every result of the downward scan is `-1` or an actual match
position at or below the bound. -/
theorem lastMatchAux_cases (s pat : List Char) :
    ∀ n : Nat, lastMatchAux s pat n = -1 ∨
      ∃ k : Nat, lastMatchAux s pat n = (k : Int) ∧ k ≤ n ∧
        matchesAt s pat k = true := by
  intro n
  induction n with
  | zero =>
    by_cases h : matchesAt s pat 0 = true
    · right; exact ⟨0, by simp [lastMatchAux, h], Nat.le_refl 0, h⟩
    · left; simp [lastMatchAux, h]
  | succ m ih =>
    by_cases h : matchesAt s pat (m + 1) = true
    · right
      refine ⟨m + 1, ?_, Nat.le_refl _, h⟩
      simp [lastMatchAux, h]
    · have h' : matchesAt s pat (m + 1) = false := by
        cases hb : matchesAt s pat (m + 1) with
        | true => exact absurd hb h
        | false => rfl
      rcases ih with hneg | ⟨k, hk, hkm, hm⟩
      · left; simpa [lastMatchAux, h'] using hneg
      · right
        exact ⟨k, by simpa [lastMatchAux, h'] using hk, by omega, hm⟩

/-- The downward scan returns `k` when `k` matches and nothing above
`k` (within the bound) does. -/
theorem lastMatchAux_eq (s pat : List Char) (k : Nat) :
    ∀ n : Nat, k ≤ n → matchesAt s pat k = true →
      (∀ i : Nat, k < i → i ≤ n → matchesAt s pat i = false) →
      lastMatchAux s pat n = (k : Int) := by
  intro n
  induction n with
  | zero =>
    intro hk hm _
    have : k = 0 := Nat.le_zero.mp hk
    subst this
    simp [lastMatchAux, hm]
  | succ m ih =>
    intro hk hm hnone
    by_cases he : k = m + 1
    · subst he
      simp [lastMatchAux, hm]
    · have hfalse : matchesAt s pat (m + 1) = false :=
        hnone (m + 1) (by omega) (Nat.le_refl _)
      rw [lastMatchAux, hfalse]
      simp only [Bool.false_eq_true, if_false]
      exact ih (by omega) hm (fun i h1 h2 => hnone i h1 (by omega))

/-- A match position of a non-empty pattern lies strictly inside the
text. -/
theorem matchesAt_lt_length (s pat : List Char) (k : Nat)
    (hp : pat ≠ []) (h : matchesAt s pat k = true) : k < s.length := by
  have he : (s.drop k).take pat.length = pat := by
    simpa [matchesAt] using h
  have hlen : ((s.drop k).take pat.length).length = pat.length := by rw [he]
  rw [List.length_take, List.length_drop] at hlen
  have hpl : 0 < pat.length := List.length_pos.mpr hp
  omega

/-- `lastIndexOf` of a non-empty closing token appended to `m` is
exactly `m.length`. -/
theorem jsLastIndexOf_append_closer (m c : List Char) (hc : c ≠ []) :
    jsLastIndexOf (m ++ c) c = (m.length : Int) := by
  have hcl : 0 < c.length := List.length_pos.mpr hc
  have hlen : (m ++ c).length = m.length + c.length := List.length_append m c
  unfold jsLastIndexOf
  rw [hlen]
  apply lastMatchAux_eq
  · omega
  · simp [matchesAt, List.drop_left, List.take_length]
  · intro i h1 h2
    by_cases hm : matchesAt (m ++ c) c i = true
    · exfalso
      have he : ((m ++ c).drop i).take c.length = c := by
        simpa [matchesAt] using hm
      have : (((m ++ c).drop i).take c.length).length = c.length := by rw [he]
      rw [List.length_take, List.length_drop, hlen] at this
      omega
    · cases hb : matchesAt (m ++ c) c i with
      | true => exact absurd hb hm
      | false => rfl

/-- If a single character is absent from the text, no position matches
the singleton pattern. -/
theorem matchesAt_single_absent (s : List Char) (ch : Char) (i : Nat)
    (h : ch ∉ s) : matchesAt s [ch] i = false := by
  cases hb : matchesAt s [ch] i with
  | false => rfl
  | true =>
    exfalso
    have he : (s.drop i).take 1 = [ch] := by
      simpa [matchesAt] using hb
    have hmem : ch ∈ (s.drop i).take 1 := by rw [he]; exact List.mem_singleton.mpr rfl
    exact h (List.mem_of_mem_drop (List.mem_of_mem_take hmem))

/-- Without any match the upward scan reports `-1`. -/
theorem firstMatchAux_none (s pat : List Char)
    (h : ∀ j : Nat, matchesAt s pat j = false) :
    ∀ fuel i : Nat, firstMatchAux s pat i fuel = -1 := by
  intro fuel
  induction fuel with
  | zero => intro i; rfl
  | succ f ih => intro i; simp [firstMatchAux, h i, ih (i + 1)]

/-- Without any match the downward scan reports `-1`. -/
theorem lastMatchAux_none (s pat : List Char)
    (h : ∀ j : Nat, matchesAt s pat j = false) :
    ∀ n : Nat, lastMatchAux s pat n = -1 := by
  intro n
  induction n with
  | zero => simp [lastMatchAux, h 0]
  | succ m ih => simp [lastMatchAux, h (m + 1), ih]

/-- `indexOf` of an absent character is `-1`. -/
theorem jsIndexOf_single_absent (s : List Char) (ch : Char) (h : ch ∉ s) :
    jsIndexOf s [ch] = -1 :=
  firstMatchAux_none s [ch] (fun j => matchesAt_single_absent s ch j h) _ _

/-- `lastIndexOf` of an absent character is `-1`. -/
theorem jsLastIndexOf_single_absent (s : List Char) (ch : Char) (h : ch ∉ s) :
    jsLastIndexOf s [ch] = -1 :=
  lastMatchAux_none s [ch] (fun j => matchesAt_single_absent s ch j h) _

/-- `substring` with in-range endpoints is plain take-then-drop. -/
theorem jsSubstring_of_le (s : List Char) (i j : Nat)
    (hij : i ≤ j) (hj : j ≤ s.length) :
    jsSubstring s (i : Int) (j : Int) = (s.take j).drop i := by
  have hi : (i : Int) ≤ (s.length : Int) := by exact_mod_cast Nat.le_trans hij hj
  have hjl : (j : Int) ≤ (s.length : Int) := by exact_mod_cast hj
  have hij' : (i : Int) ≤ (j : Int) := by exact_mod_cast hij
  simp only [jsSubstring]
  have e1 : min (max (i : Int) 0) (s.length : Int) = (i : Int) := by omega
  have e2 : min (max (j : Int) 0) (s.length : Int) = (j : Int) := by omega
  rw [e1, e2, min_eq_left hij', max_eq_right hij']
  simp

/-- `parseHTML` when the closer token never occurs: the result is the
front of the text up to the doctype marker's position (clamped to 0
when the marker is absent). -/
theorem parseHTML_closer_absent (s opener closer : List Char)
    (h : jsLastIndexOf s closer = -1) :
    parseHTML s opener closer = s.take (jsIndexOf s docTypeTag).toNat := by
  have hdoc : docTypeTag ≠ [] := by decide
  simp only [parseHTML, h]
  rcases firstMatchAux_cases s docTypeTag (s.length + 1) 0 with hneg | ⟨k, hk, _, hm⟩
  · have hx : jsIndexOf s docTypeTag = -1 := hneg
    rw [hx]
    simp only [jsSubstring]
    have h0 : (0 : Int) ≤ (s.length : Int) := by positivity
    have e1 : min (max (-1 : Int) 0) (s.length : Int) = 0 := by omega
    rw [e1]
    simp
  · have hx : jsIndexOf s docTypeTag = (k : Int) := hk
    have hkl : k < s.length := matchesAt_lt_length s docTypeTag k hdoc hm
    rw [hx]
    simp only [jsSubstring]
    have hk0 : (0 : Int) ≤ (k : Int) := by positivity
    have hkl' : (k : Int) ≤ (s.length : Int) := by exact_mod_cast Nat.le_of_lt hkl
    have h0 : (0 : Int) ≤ (s.length : Int) := by positivity
    have e1 : min (max ((k : Int)) 0) ((s.length : Int)) = (k : Int) := by omega
    have e2 : min (max (-1 : Int) 0) ((s.length : Int)) = 0 := by omega
    rw [e1, e2, min_comm, min_eq_left hk0, max_eq_left hk0]
    simp

/-- `parseHTML` on a document that starts with the doctype marker and
ends with one trailing occurrence of a non-empty closer returns exactly
the document between them. -/
theorem parseHTML_wrapped (tail opener closer : List Char) (hc : closer ≠ []) :
    parseHTML ((docTypeTag ++ tail) ++ closer) opener closer = docTypeTag ++ tail := by
  have h1 : jsIndexOf ((docTypeTag ++ tail) ++ closer) docTypeTag = 0 := by
    rw [List.append_assoc]
    exact jsIndexOf_append_front docTypeTag (tail ++ closer)
  have h2 : jsLastIndexOf ((docTypeTag ++ tail) ++ closer) closer
      = ((docTypeTag ++ tail).length : Int) :=
    jsLastIndexOf_append_closer (docTypeTag ++ tail) closer hc
  simp only [parseHTML, h1, h2]
  have h3 := jsSubstring_of_le ((docTypeTag ++ tail) ++ closer) 0
    (docTypeTag ++ tail).length (Nat.zero_le _)
    (by simp only [List.length_append]; omega)
  have h0 : ((0 : Nat) : Int) = (0 : Int) := by simp
  rw [h0] at h3
  rw [h3, List.drop_zero, List.take_left]

/-- Does the string carry leading or trailing JS whitespace? -/
def hasOuterWs (s : List Char) : Bool :=
  (s.head?.elim false isJsWs) || (s.getLast?.elim false isJsWs)

/-- Dropping a satisfied head strictly shortens. -/
theorem length_dropWhile_lt_of_head (l : List Char) (c : Char)
    (hc : isJsWs c = true) :
    ((c :: l).dropWhile isJsWs).length < (c :: l).length := by
  have hsuf : l.dropWhile isJsWs <:+ l := List.dropWhile_suffix isJsWs
  have := hsuf.length_le
  simp [List.dropWhile, hc]
  omega

/-- Trimming a string with leading or trailing whitespace strictly
shortens it. -/
theorem jsTrim_length_lt (s : List Char) (h : hasOuterWs s = true) :
    (jsTrim s).length < s.length := by
  have hs : s ≠ [] := by
    intro he; subst he; simp [hasOuterWs] at h
  rcases (show (s.head?.elim false isJsWs) = true ∨ (s.getLast?.elim false isJsWs) = true by
    simpa [hasOuterWs] using h) with hh | hl
  · -- leading whitespace
    obtain ⟨c, t, rfl⟩ : ∃ c t, s = c :: t := by
      cases s with
      | nil => exact absurd rfl hs
      | cons c t => exact ⟨c, t, rfl⟩
    have hc : isJsWs c = true := by simpa using hh
    have h1 := length_dropWhile_lt_of_head t c hc
    have hsuf : ((c :: t).dropWhile isJsWs).reverse.dropWhile isJsWs
        <:+ ((c :: t).dropWhile isJsWs).reverse := List.dropWhile_suffix isJsWs
    have h2 := hsuf.length_le
    simp only [jsTrim, List.length_reverse] at h2 ⊢
    omega
  · -- trailing whitespace
    cases hget : s.getLast? with
    | none => rw [hget] at hl; simp at hl
    | some ch =>
      rw [hget] at hl
      simp only [Option.elim] at hl
      by_cases hd : s.dropWhile isJsWs = []
      · have he : jsTrim s = [] := by simp [jsTrim, hd]
        rw [he]
        simpa using List.length_pos.mpr hs
      · have hApp : (s.takeWhile isJsWs ++ s.dropWhile isJsWs).getLast?
            = (s.dropWhile isJsWs).getLast? :=
          List.getLast?_append_of_ne_nil _ hd
        rw [List.takeWhile_append_dropWhile] at hApp
        have hrev : (s.dropWhile isJsWs).reverse.head? = some ch := by
          rw [List.head?_reverse, ← hApp, hget]
        obtain ⟨r, hr⟩ : ∃ r, (s.dropWhile isJsWs).reverse = ch :: r := by
          cases hx : (s.dropWhile isJsWs).reverse with
          | nil => rw [hx] at hrev; exact absurd hrev (by simp)
          | cons a b =>
            rw [hx] at hrev
            simp only [List.head?] at hrev
            exact ⟨b, by rw [← Option.some_inj.mp hrev]⟩
        have h1 : (((s.dropWhile isJsWs).reverse).dropWhile isJsWs).length
            < ((s.dropWhile isJsWs).reverse).length := by
          rw [hr]
          exact length_dropWhile_lt_of_head r ch hl
        have hsuf : s.dropWhile isJsWs <:+ s := List.dropWhile_suffix isJsWs
        have h2 := hsuf.length_le
        simp only [jsTrim, List.length_reverse] at h1 ⊢
        omega

/-- Trimming a string with outer whitespace changes it. -/
theorem jsTrim_ne_of_outer_ws (s : List Char) (h : hasOuterWs s = true) :
    jsTrim s ≠ s := by
  intro he
  have := jsTrim_length_lt s h
  rw [he] at this
  omega

/-- C5: `extractHTMLDocument` (`parseHTML`) applied to
`"prefix <!DOCTYPE html><html></html> END"` with opener `"X"` and
closer `"END"` returns exactly `"<!DOCTYPE html><html></html> "`: the
result starts at the doctype marker and ends at the start index
(exclusive) of the last occurrence of the closer token, not at its
end. -/
theorem claim_c5_parseHTML_example :
    parseHTML "prefix <!DOCTYPE html><html></html> END".toList
        "X".toList "END".toList
      = "<!DOCTYPE html><html></html> ".toList := by
  decide

/-- C9: `parseHTML` is a total function of its string arguments (it is
defined without any failure path), and when the closer token does not
occur in the text it returns the portion of the text strictly before
the doctype marker: `take` of the marker's index, which is the empty
string when the marker is absent (index `-1`, `toNat` 0) or at
index 0, reproducing JS `substring`'s clamp-and-swap. -/
theorem claim_c9_parseHTML_closer_absent (s opener closer : List Char)
    (h : jsLastIndexOf s closer = -1) :
    parseHTML s opener closer = s.take (jsIndexOf s docTypeTag).toNat :=
  parseHTML_closer_absent s opener closer h

/-- Witness for C9 at a concrete input whose closer is absent. -/
theorem claim_c9_witness :
    jsLastIndexOf "ab<!DOCTYPE html>x".toList "ZZ".toList = -1 ∧
    parseHTML "ab<!DOCTYPE html>x".toList "X".toList "ZZ".toList = "ab".toList := by
  refine ⟨by decide, ?_⟩
  rw [claim_c9_parseHTML_closer_absent _ _ _ (by decide)]
  decide

/-- C4: a basis reassignment bumps the run token, so the completion of
a run started before the reassignment (token at most the old counter)
is discarded: committing it changes nothing about the state owned by
the new run. -/
theorem claim_c4_stale_run_discarded (s : Session) (v2 : List Char)
    (token : Nat) (result : RunState) (h : token ≤ s.reloadCounter) :
    sessionStep (sessionStep s (.newBasis v2)) (.runCommit token result)
      = sessionStep s (.newBasis v2) := by
  have hne : ¬(token = s.reloadCounter + 1) := by omega
  simp [sessionStep, hne]

/-- Witness for C4: run `V1` was started at token 5, the basis moves to
`V2`, and `V1`'s late completion leaves the state untouched. -/
theorem claim_c4_witness :
    sessionStep (sessionStep ⟨5, "V1".toList, initialState [] []⟩
        (.newBasis "V2".toList))
      (.runCommit 5 (initialState "s".toList "c".toList))
      = sessionStep ⟨5, "V1".toList, initialState [] []⟩ (.newBasis "V2".toList) :=
  claim_c4_stale_run_discarded _ _ _ _ (by decide)

/-- C6: saving an edited spec whose trimmed text equals the stored
spec is a no-op: no stage-two call is issued (second component
`false`) and the whole pipeline state is returned unchanged. -/
theorem claim_c6_save_identical_noop (st : RunState) (editedSpec : List Char)
    (apiKeyPresent : Bool) (resp2 : List Char → GenResponse)
    (opener closer : List Char) (h : jsTrim editedSpec = st.spec) :
    handleSpecSave st editedSpec apiKeyPresent resp2 opener closer = (st, false) := by
  simp [handleSpecSave, h]

/-- Witness for C6 at a concrete state and edit differing only by
surrounding whitespace from the (already trimmed) stored spec. -/
theorem claim_c6_witness :
    handleSpecSave ⟨"a".toList, "c".toList, .ready, none⟩ " a ".toList
        true (fun _ => ⟨none, none, []⟩) "O".toList "C".toList
      = (⟨"a".toList, "c".toList, .ready, none⟩, false) :=
  claim_c6_save_identical_noop _ _ _ _ _ _ (by decide)

/-- C7: on a changed spec, the stored spec becomes the trimmed edit
before the stage-two call; when the call fails, the state is `error`
with the failure's message while the spec still holds the edited
(trimmed) value and the code is untouched — no rollback. -/
theorem claim_c7_failed_regen_keeps_edit (st : RunState) (editedSpec : List Char)
    (apiKeyPresent : Bool) (resp2 : List Char → GenResponse)
    (opener closer e : List Char)
    (hne : jsTrim editedSpec ≠ st.spec)
    (hfail : generateCodeFromSpec apiKeyPresent (resp2 (jsTrim editedSpec))
        opener closer = .error e) :
    handleSpecSave st editedSpec apiKeyPresent resp2 opener closer =
      ({ st with spec := jsTrim editedSpec, loadingState := .err,
                 errorMsg := some e }, true) := by
  simp [handleSpecSave, hne, hfail]

/-- Witness for C7: a backend with no candidates fails stage two, and
the edited spec survives the failure. -/
theorem claim_c7_witness :
    handleSpecSave ⟨"old".toList, "k".toList, .ready, none⟩ "new".toList
        true (fun _ => ⟨none, none, []⟩) "O".toList "C".toList
      = (⟨"new".toList, "k".toList, .err, some noCandidatesMsg⟩, true) :=
  claim_c7_failed_regen_keeps_edit _ _ _ _ _ _ _ (by decide) rfl

/-- C8: pre-seeding takes effect only when both strings are non-empty:
with either one empty, the mount starts in `loading-spec` and the final
state is the one of a fully fresh two-stage run, independent of the
provided value. -/
theorem claim_c8_preseed_needs_both (preSeededSpec preSeededCode : List Char)
    (apiKeyPresent : Bool) (resp1 : GenResponse)
    (resp2 : List Char → GenResponse) (addendum opener closer : List Char)
    (h : preSeededSpec = [] ∨ preSeededCode = []) :
    (initialState preSeededSpec preSeededCode).loadingState = .loadingSpec ∧
    runPipeline preSeededSpec preSeededCode apiKeyPresent resp1 resp2
        addendum opener closer
      = runPipeline [] [] apiKeyPresent resp1 resp2 addendum opener closer := by
  have hcond : ¬(preSeededSpec ≠ [] ∧ preSeededCode ≠ []) := by tauto
  constructor
  · simp [initialState, hcond]
  · simp [runPipeline, generateContent, hcond, initialState]

/-- Witness for C8: a pre-seeded spec with no pre-seeded code is
ignored. -/
theorem claim_c8_witness :
    (initialState "S".toList []).loadingState = .loadingSpec ∧
    runPipeline "S".toList [] true ⟨none, none, []⟩ (fun _ => ⟨none, none, []⟩)
        "A".toList "O".toList "C".toList
      = runPipeline [] [] true ⟨none, none, []⟩ (fun _ => ⟨none, none, []⟩)
        "A".toList "O".toList "C".toList :=
  claim_c8_preseed_needs_both _ _ _ _ _ _ _ _ (Or.inr rfl)

/-- C10: the change check trims only the edited text and compares with
the stored spec untrimmed, so when the stored spec carries leading or
trailing whitespace, an edit identical up to surrounding whitespace is
treated as a change: a stage-two call is issued and the stored spec
becomes the trimmed edit. -/
theorem claim_c10_trim_asymmetry (st : RunState) (editedSpec : List Char)
    (apiKeyPresent : Bool) (resp2 : List Char → GenResponse)
    (opener closer : List Char)
    (hws : hasOuterWs st.spec = true)
    (heq : jsTrim editedSpec = jsTrim st.spec) :
    (handleSpecSave st editedSpec apiKeyPresent resp2 opener closer).2 = true ∧
    (handleSpecSave st editedSpec apiKeyPresent resp2 opener closer).1.spec
      = jsTrim editedSpec := by
  have hne : jsTrim editedSpec ≠ st.spec := by
    rw [heq]
    exact jsTrim_ne_of_outer_ws st.spec hws
  unfold handleSpecSave
  rw [if_neg hne]
  cases generateCodeFromSpec apiKeyPresent (resp2 (jsTrim editedSpec)) opener closer with
  | ok cd => exact ⟨rfl, rfl⟩
  | error e => exact ⟨rfl, rfl⟩

/-- Witness for C10: stored spec `" a"`, edit `"a "` — same content up
to surrounding whitespace, yet a regeneration is triggered. -/
theorem claim_c10_witness :
    (handleSpecSave ⟨" a".toList, "k".toList, .ready, none⟩ "a ".toList
        true (fun _ => ⟨none, none, []⟩) "O".toList "C".toList).2 = true ∧
    (handleSpecSave ⟨" a".toList, "k".toList, .ready, none⟩ "a ".toList
        true (fun _ => ⟨none, none, []⟩) "O".toList "C".toList).1.spec
      = jsTrim "a ".toList :=
  claim_c10_trim_asymmetry _ _ _ _ _ _ (by decide) (by decide)

/-- `pat` occurs as a contiguous segment of `s`. -/
def occursWithin (pat s : List Char) : Prop :=
  ∃ a b : List Char, s = a ++ (pat ++ b)

/-- C2: `generateText` validates every backend response in order, each
condition failing with its own distinct error: (1) a reported prompt
block reason fails with a message including that reason; (2) a missing
or empty candidate list fails with the no-candidates message; (3) a
present finish reason other than the normal stop fails with the
safety-specific message when it is the safety reason, and otherwise
with the generic stopped-due-to message including the reason; (4)
otherwise the response's rendered text is returned. -/
theorem claim_c2_generateText_validation (resp : GenResponse) :
    (∀ r : List Char, resp.blockReason = some r →
      generateText true resp = .error (promptBlockedMsg r) ∧
        occursWithin r (promptBlockedMsg r)) ∧
    (resp.blockReason = none →
      (resp.candidates = none ∨ resp.candidates = some []) →
      generateText true resp = .error noCandidatesMsg) ∧
    (∀ (c0 : Candidate) (rest : List Candidate) (fr : FinishReason),
      resp.blockReason = none → resp.candidates = some (c0 :: rest) →
      c0.finishReason = some fr → fr ≠ .STOP →
      ((fr = .SAFETY → generateText true resp = .error safetyBlockedMsg) ∧
       (fr ≠ .SAFETY → generateText true resp = .error (stoppedMsg fr) ∧
         occursWithin fr.render (stoppedMsg fr)))) ∧
    (∀ (c0 : Candidate) (rest : List Candidate),
      resp.blockReason = none → resp.candidates = some (c0 :: rest) →
      (c0.finishReason = none ∨ c0.finishReason = some .STOP) →
      generateText true resp = .ok resp.text) := by
  refine ⟨?_, ?_, ?_, ?_⟩
  · intro r hr
    constructor
    · simp [generateText, hr]
    · exact ⟨"Content generation failed: Prompt blocked (reason: ".toList,
        ")".toList, rfl⟩
  · intro hb hc
    rcases hc with hc | hc <;> simp [generateText, hb, hc]
  · intro c0 rest fr hb hc hf hstop
    constructor
    · intro hsafe
      subst hsafe
      simp [generateText, hb, hc, hf]
    · intro hnsafe
      constructor
      · simp [generateText, hb, hc, hf, hstop, hnsafe]
      · exact ⟨"Content generation failed: Stopped due to ".toList,
          ".".toList, rfl⟩
  · intro c0 rest hb hc hf
    rcases hf with hf | hf <;> simp [generateText, hb, hc, hf]

/-- Witness for C2: each of the four validation outcomes observed on a
concrete response. -/
theorem claim_c2_witness :
    generateText true ⟨some "OTHER".toList, none, []⟩
      = .error (promptBlockedMsg "OTHER".toList) ∧
    generateText true ⟨none, some [], []⟩ = .error noCandidatesMsg ∧
    generateText true ⟨none, some [⟨some .SAFETY⟩], []⟩
      = .error safetyBlockedMsg ∧
    generateText true ⟨none, some [⟨some (.OTHER "MAX_TOKENS".toList)⟩], []⟩
      = .error (stoppedMsg (.OTHER "MAX_TOKENS".toList)) ∧
    generateText true ⟨none, some [⟨some .STOP⟩], "T".toList⟩ = .ok "T".toList := by
  refine ⟨?_, ?_, ?_, ?_, ?_⟩
  · exact ((claim_c2_generateText_validation ⟨some "OTHER".toList, none, []⟩).1
      "OTHER".toList rfl).1
  · exact (claim_c2_generateText_validation ⟨none, some [], []⟩).2.1
      rfl (Or.inr rfl)
  · exact (((claim_c2_generateText_validation ⟨none, some [⟨some .SAFETY⟩], []⟩).2.2.1
      ⟨some .SAFETY⟩ [] .SAFETY rfl rfl rfl (by decide)).1 rfl)
  · exact ((((claim_c2_generateText_validation
      ⟨none, some [⟨some (.OTHER "MAX_TOKENS".toList)⟩], []⟩).2.2.1
      ⟨some (.OTHER "MAX_TOKENS".toList)⟩ [] (.OTHER "MAX_TOKENS".toList)
      rfl rfl rfl (by decide)).2 (by decide)).1)
  · exact ((claim_c2_generateText_validation ⟨none, some [⟨some .STOP⟩], "T".toList⟩).2.2.2
      ⟨some .STOP⟩ [] rfl rfl (Or.inr rfl))

/-- A healthy backend response: no block, one candidate finishing with
the normal stop, rendering `t`. -/
def okResp (t : List Char) : GenResponse :=
  ⟨none, some [⟨some .STOP⟩], t⟩

/-- The stage-one response text of the C1 scenario: exactly the JSON
object with a `spec` field holding `"S1"`. -/
def jsonSpecS1 : List Char := [lbrace] ++ "\"spec\":\"S1\"".toList ++ [rbrace]

/-- C1: a fresh (non-pre-seeded) run whose stage-one call returns text
with JSON payload `spec = "S1"` and whose stage-two call returns text
containing `<!DOCTYPE html>CODE1</html>` followed by the closing
delimiter ends `ready`, with the spec equal to `S1` plus the fixed
addendum and the code equal to the substring from `<!DOCTYPE html>` up
to (exclusive) the last occurrence of the closing delimiter. -/
theorem claim_c1_scenario (addendum opener closer : List Char) (hc : closer ≠ []) :
    runPipeline [] [] true (okResp jsonSpecS1)
      (fun _ => okResp ("<!DOCTYPE html>CODE1</html>".toList ++ closer))
      addendum opener closer
    = { spec := "S1".toList ++ addendum,
        code := "<!DOCTYPE html>CODE1</html>".toList,
        loadingState := .ready, errorMsg := none } := by
  have h1 : generateSpecFromVideo true (okResp jsonSpecS1) addendum
      = .ok ("S1".toList ++ addendum) := rfl
  have hdoc : "<!DOCTYPE html>CODE1</html>".toList
      = docTypeTag ++ "CODE1</html>".toList := by decide
  have hok : ∀ t : List Char, generateText true (okResp t) = .ok t := fun t => rfl
  have hp := parseHTML_wrapped "CODE1</html>".toList opener closer hc
  have h2 : generateCodeFromSpec true
      (okResp ((docTypeTag ++ "CODE1</html>".toList) ++ closer)) opener closer
      = .ok (docTypeTag ++ "CODE1</html>".toList) := by
    unfold generateCodeFromSpec
    rw [hok]
    exact congrArg Except.ok hp
  rw [hdoc]
  unfold runPipeline generateContent
  rw [if_neg (by simp)]
  simp only [h1, h2]

/-- Witness for C1 with a concrete closer and addendum. -/
theorem claim_c1_witness :
    "=====".toList ≠ ([] : List Char) ∧
    runPipeline [] [] true (okResp jsonSpecS1)
      (fun _ => okResp ("<!DOCTYPE html>CODE1</html>".toList ++ "=====".toList))
      "A".toList "O".toList "=====".toList
    = { spec := "S1".toList ++ "A".toList,
        code := "<!DOCTYPE html>CODE1</html>".toList,
        loadingState := .ready, errorMsg := none } :=
  ⟨by decide, claim_c1_scenario "A".toList "O".toList "=====".toList (by decide)⟩

/-- C3 counterexample: the input `"5" ++ lbrace` contains no closing
brace, yet `parseJSON` returns the number 5 instead of failing —
`substring(1, 0)` swaps its clamped endpoints and yields `"5"`.  This
refutes the claim that every input with no closing brace fails. -/
theorem claim_c3_counterexample :
    rbrace ∉ ("5".toList ++ [lbrace]) ∧
    parseJSON ("5".toList ++ [lbrace]) = some (Json.jnum "5".toList) := by
  exact ⟨by decide, rfl⟩

/-- `skipWs` removes a whitespace front segment. -/
theorem skipWs_decomp (s : List Char) : ∃ pre, s = pre ++ skipWs s := by
  induction s with
  | nil => exact ⟨[], rfl⟩
  | cons c cs ih =>
    by_cases h : isJsonWs c = true
    · obtain ⟨p, hp⟩ := ih
      exact ⟨c :: p, by simp [skipWs, h]; exact hp⟩
    · exact ⟨[], by simp [skipWs, h]⟩

/-- A text whose whitespace-skip is empty is all whitespace. -/
theorem skipWs_nil_all_ws (s : List Char) (h : skipWs s = []) :
    ∀ c ∈ s, isJsonWs c = true := by
  induction s with
  | nil => intro c hc; simp at hc
  | cons c cs ih =>
    intro d hd
    by_cases hw : isJsonWs c = true
    · rw [show skipWs (c :: cs) = skipWs cs from by simp [skipWs, hw]] at h
      rcases List.mem_cons.mp hd with rfl | hd'
      · exact hw
      · exact ih h d hd'
    · rw [show skipWs (c :: cs) = c :: cs from by simp [skipWs, hw]] at h
      simp at h

/-- Decimal digits are not the closing brace. -/
theorem digit_ne_rbrace (c : Char) (h : isDigitCh c = true) : c ≠ rbrace := by
  intro he
  subst he
  exact absurd h (by decide)

/-- `takeDigits` splits its input and returns only digits. -/
theorem takeDigits_spec (s : List Char) :
    s = (takeDigits s).1 ++ (takeDigits s).2 ∧
    ∀ c ∈ (takeDigits s).1, isDigitCh c = true := by
  induction s with
  | nil => exact ⟨rfl, by intro c hc; simp [takeDigits] at hc⟩
  | cons c cs ih =>
    by_cases h : isDigitCh c = true
    · refine ⟨?_, ?_⟩
      · rw [show takeDigits (c :: cs) = (c :: (takeDigits cs).1, (takeDigits cs).2)
          from by simp [takeDigits, h]]
        simpa using ih.1
      · rw [show takeDigits (c :: cs) = (c :: (takeDigits cs).1, (takeDigits cs).2)
          from by simp [takeDigits, h]]
        intro d hd
        rcases List.mem_cons.mp hd with rfl | hd'
        · exact h
        · exact ih.2 d hd'
    · rw [show takeDigits (c :: cs) = ([], c :: cs) from by simp [takeDigits, h]]
      exact ⟨rfl, by intro d hd; simp at hd⟩

/-- `numIntPart` splits off a non-empty run of digits. -/
theorem numIntPart_spec (s ip r : List Char) (h : numIntPart s = some (ip, r)) :
    s = ip ++ r ∧ ip ≠ [] ∧ ∀ c ∈ ip, isDigitCh c = true := by
  cases s with
  | nil => simp [numIntPart] at h
  | cons c cs =>
    by_cases h0 : c = '0'
    · subst h0
      rw [show numIntPart ('0' :: cs) = some (['0'], cs) from by simp [numIntPart]] at h
      obtain ⟨he1, he2⟩ := Prod.mk.injEq .. ▸ (Option.some_inj.mp h)
      subst he1; subst he2
      exact ⟨rfl, by simp, by intro d hd; rcases List.mem_singleton.mp hd with rfl; decide⟩
    · by_cases hd : isDigitCh c = true
      · rw [show numIntPart (c :: cs)
            = some (c :: (takeDigits cs).1, (takeDigits cs).2)
          from by simp [numIntPart, h0, hd]] at h
        obtain ⟨he1, he2⟩ := Prod.mk.injEq .. ▸ (Option.some_inj.mp h)
        subst he2
        rw [← he1]
        refine ⟨by simpa using (takeDigits_spec cs).1, by simp, ?_⟩
        intro d hdm
        rcases List.mem_cons.mp hdm with rfl | hdm'
        · exact hd
        · exact (takeDigits_spec cs).2 d hdm'
      · rw [show numIntPart (c :: cs) = none from by simp [numIntPart, h0, hd]] at h
        simp at h

/-- `numFracPart` splits its input; the consumed part has no closing
brace. -/
theorem numFracPart_spec (s fp r : List Char) (h : numFracPart s = some (fp, r)) :
    s = fp ++ r ∧ ∀ c ∈ fp, c ≠ rbrace := by
  cases s with
  | nil =>
    rw [show numFracPart [] = some ([], []) from rfl] at h
    obtain ⟨he1, he2⟩ := Prod.mk.injEq .. ▸ (Option.some_inj.mp h)
    subst he1; subst he2
    exact ⟨rfl, by intro c hc; simp at hc⟩
  | cons c cs =>
    by_cases hdot : c = '.'
    · subst hdot
      rcases htd : takeDigits cs with ⟨d, r0⟩
      cases d with
      | nil =>
        rw [show numFracPart ('.' :: cs) = none from by simp [numFracPart, htd]] at h
        simp at h
      | cons d0 ds =>
        rw [show numFracPart ('.' :: cs) = some ('.' :: d0 :: ds, r0)
            from by simp [numFracPart, htd]] at h
        obtain ⟨he1, he2⟩ := Prod.mk.injEq .. ▸ (Option.some_inj.mp h)
        subst he2
        rw [← he1]
        have hspec := takeDigits_spec cs
        rw [htd] at hspec
        refine ⟨by simpa using hspec.1, ?_⟩
        intro e he
        rcases List.mem_cons.mp he with rfl | he'
        · decide
        · exact digit_ne_rbrace e (hspec.2 e he')
    · rw [show numFracPart (c :: cs) = some ([], c :: cs)
          from by simp [numFracPart, hdot]] at h
      obtain ⟨he1, he2⟩ := Prod.mk.injEq .. ▸ (Option.some_inj.mp h)
      subst he1; subst he2
      exact ⟨rfl, by intro e he; simp at he⟩

/-- `numExpPart` splits its input; the consumed part has no closing
brace. -/
theorem numExpPart_spec (s ep r : List Char) (h : numExpPart s = some (ep, r)) :
    s = ep ++ r ∧ ∀ c ∈ ep, c ≠ rbrace := by
  cases s with
  | nil =>
    rw [show numExpPart [] = some ([], []) from rfl] at h
    obtain ⟨he1, he2⟩ := Prod.mk.injEq .. ▸ (Option.some_inj.mp h)
    subst he1; subst he2
    exact ⟨rfl, by intro c hc; simp at hc⟩
  | cons c cs =>
    by_cases hee : (c = 'e' || c = 'E') = true
    · have hsgn : ∃ sg rest, cs = sg ++ rest ∧ (∀ x ∈ sg, x = '+' ∨ x = '-') ∧
          numExpPart (c :: cs) = (match takeDigits rest with
            | ([], _) => none
            | (d, r) => some (c :: (sg ++ d), r)) := by
        cases cs with
        | nil => exact ⟨[], [], rfl, by intro x hx; simp at hx, by simp [numExpPart, hee]⟩
        | cons c2 cs2 =>
          by_cases hpm : (c2 = '+' || c2 = '-') = true
          · refine ⟨[c2], cs2, rfl, ?_, by simp [numExpPart, hee, hpm]⟩
            intro x hx
            rcases List.mem_singleton.mp hx with rfl
            rcases Bool.or_eq_true_iff.mp hpm with h1 | h1
            · exact Or.inl (by simpa using h1)
            · exact Or.inr (by simpa using h1)
          · exact ⟨[], c2 :: cs2, rfl, by intro x hx; simp at hx,
              by simp [numExpPart, hee, hpm]⟩
      obtain ⟨sg, rest, hcs, hsg, heq⟩ := hsgn
      rw [heq] at h
      rcases htd : takeDigits rest with ⟨d, r0⟩
      cases d with
      | nil =>
        rw [htd] at h
        simp at h
      | cons d0 ds =>
        rw [htd] at h
        obtain ⟨he1, he2⟩ := Prod.mk.injEq .. ▸ (Option.some_inj.mp h)
        subst he2
        rw [← he1]
        have hspec := takeDigits_spec rest
        rw [htd] at hspec
        constructor
        · rw [hcs, hspec.1]
          simp
        · intro e he
          rcases List.mem_cons.mp he with rfl | he'
          · rcases Bool.or_eq_true_iff.mp hee with h1 | h1
            · rw [show e = 'e' from by simpa using h1]; decide
            · rw [show e = 'E' from by simpa using h1]; decide
          · rcases List.mem_append.mp he' with hsgm | hdm
            · rcases hsg e hsgm with rfl | rfl <;> decide
            · exact digit_ne_rbrace e (hspec.2 e hdm)
    · rw [show numExpPart (c :: cs) = some ([], c :: cs)
          from by simp [numExpPart, hee]] at h
      obtain ⟨he1, he2⟩ := Prod.mk.injEq .. ▸ (Option.some_inj.mp h)
      subst he1; subst he2
      exact ⟨rfl, by intro e he; simp at he⟩

/-- `parseNumber` splits its input; the consumed literal is non-empty
and contains no closing brace. -/
theorem parseNumber_spec (s lit r : List Char) (h : parseNumber s = some (lit, r)) :
    s = lit ++ r ∧ lit ≠ [] ∧ ∀ c ∈ lit, c ≠ rbrace := by
  have hsgn : ∃ sg rest, s = sg ++ rest ∧ (∀ x ∈ sg, x = '-') ∧
      parseNumber s = (match numIntPart rest with
        | none => none
        | some (ip, r1) =>
          match numFracPart r1 with
          | none => none
          | some (fp, r2) =>
            match numExpPart r2 with
            | none => none
            | some (ep, r3) => some (sg ++ ip ++ fp ++ ep, r3)) := by
    cases s with
    | nil => exact ⟨[], [], rfl, by intro x hx; simp at hx, by simp [parseNumber]⟩
    | cons c cs =>
      by_cases hminus : c = '-'
      · subst hminus
        exact ⟨['-'], cs, rfl, by intro x hx; simpa using List.mem_singleton.mp hx,
          by simp [parseNumber]⟩
      · exact ⟨[], c :: cs, rfl, by intro x hx; simp at hx,
          by simp [parseNumber, hminus]⟩
  obtain ⟨sg, rest, hs, hsg, heq⟩ := hsgn
  rw [heq] at h
  rcases hip : numIntPart rest with _ | ⟨ip, r1⟩
  · rw [hip] at h; simp at h
  rw [hip] at h
  dsimp only [] at h
  rcases hfp : numFracPart r1 with _ | ⟨fp, r2⟩
  · rw [hfp] at h; simp at h
  rw [hfp] at h
  dsimp only [] at h
  rcases hep : numExpPart r2 with _ | ⟨ep, r3⟩
  · rw [hep] at h; simp at h
  rw [hep] at h
  dsimp only [] at h
  obtain ⟨he1, he2⟩ := Prod.mk.injEq .. ▸ (Option.some_inj.mp h)
  subst he2
  obtain ⟨hi1, hine, hidig⟩ := numIntPart_spec rest ip r1 hip
  obtain ⟨hf1, hfnb⟩ := numFracPart_spec r1 fp r2 hfp
  obtain ⟨he1', henb⟩ := numExpPart_spec r2 ep r3 hep
  rw [← he1]
  refine ⟨?_, ?_, ?_⟩
  · rw [hs, hi1, hf1, he1']
    simp
  · intro hnil
    have : ip = [] := by
      rcases List.append_eq_nil.mp (List.append_eq_nil.mp
        (List.append_eq_nil.mp hnil).1).1 with ⟨_, h2⟩
      exact h2
    exact hine this
  · intro e he
    rcases List.mem_append.mp he with he' | hemem
    · rcases List.mem_append.mp he' with he'' | hemem
      · rcases List.mem_append.mp he'' with hsgm | hipm
        · rw [hsg e hsgm]; decide
        · exact digit_ne_rbrace e (hidig e hipm)
      · exact hfnb e hemem
    · exact henb e hemem

/-- A successful string-body parse consumed everything up to and
including a closing quote: the input is the consumed part, whose last
character is `"`, followed by the remainder. -/
theorem parseStringBody_consumed : ∀ (f : Nat) (cs b r : List Char),
    parseStringBody f cs = some (b, r) → ∃ pre, cs = pre ++ '"' :: r := by
  intro f
  induction f with
  | zero => intro cs b r h; simp [parseStringBody] at h
  | succ f ih =>
    intro cs b r h
    cases cs with
    | nil => simp [parseStringBody] at h
    | cons c cs' =>
      have step : ∀ (X : List Char) (g : List Char → List Char),
          (parseStringBody f X).map (fun p => (g p.1, p.2)) = some (b, r) →
          ∃ pre, X = pre ++ '"' :: r := by
        intro X g hmap
        rcases Option.map_eq_some'.mp hmap with ⟨⟨p1, p2⟩, hps, hg⟩
        obtain ⟨hg1, hg2⟩ := Prod.mk.injEq .. ▸ hg
        rw [← hg2]
        exact ih X p1 p2 hps
      simp only [parseStringBody] at h
      by_cases h1 : c = '"'
      · subst h1
        simp only [if_pos rfl] at h
        obtain ⟨hb, hr⟩ := Prod.mk.injEq .. ▸ (Option.some_inj.mp h)
        exact ⟨[], by rw [hr]; simp⟩
      · rw [if_neg h1] at h
        by_cases h2 : c = '\\'
        · subst h2
          rw [if_pos rfl] at h
          cases cs' with
          | nil => simp at h
          | cons e cs2 =>
            dsimp only [] at h
            by_cases e1 : e = '"' ∨ e = '\\' ∨ e = '/'
            · rw [if_pos e1] at h
              obtain ⟨pre, hpre⟩ := step cs2 (fun l => e :: l) h
              exact ⟨'\\' :: e :: pre, by rw [hpre]; rfl⟩
            · rw [if_neg e1] at h
              by_cases e2 : e = 'b'
              · rw [if_pos e2] at h
                obtain ⟨pre, hpre⟩ := step cs2 (fun l => Char.ofNat 8 :: l) h
                exact ⟨'\\' :: e :: pre, by rw [hpre]; rfl⟩
              · rw [if_neg e2] at h
                by_cases e3 : e = 'f'
                · rw [if_pos e3] at h
                  obtain ⟨pre, hpre⟩ := step cs2 (fun l => Char.ofNat 12 :: l) h
                  exact ⟨'\\' :: e :: pre, by rw [hpre]; rfl⟩
                · rw [if_neg e3] at h
                  by_cases e4 : e = 'n'
                  · rw [if_pos e4] at h
                    obtain ⟨pre, hpre⟩ := step cs2 (fun l => '\n' :: l) h
                    exact ⟨'\\' :: e :: pre, by rw [hpre]; rfl⟩
                  · rw [if_neg e4] at h
                    by_cases e5 : e = 'r'
                    · rw [if_pos e5] at h
                      obtain ⟨pre, hpre⟩ := step cs2 (fun l => '\r' :: l) h
                      exact ⟨'\\' :: e :: pre, by rw [hpre]; rfl⟩
                    · rw [if_neg e5] at h
                      by_cases e6 : e = 't'
                      · rw [if_pos e6] at h
                        obtain ⟨pre, hpre⟩ := step cs2 (fun l => '\t' :: l) h
                        exact ⟨'\\' :: e :: pre, by rw [hpre]; rfl⟩
                      · rw [if_neg e6] at h
                        by_cases e7 : e = 'u'
                        · rw [if_pos e7] at h
                          rcases htk : cs2.take 4 with _ | ⟨x1, t1⟩
                          · rw [htk] at h; simp at h
                          rcases t1 with _ | ⟨x2, t2⟩
                          · rw [htk] at h; simp at h
                          rcases t2 with _ | ⟨x3, t3⟩
                          · rw [htk] at h; simp at h
                          rcases t3 with _ | ⟨x4, t4⟩
                          · rw [htk] at h; simp at h
                          rcases t4 with _ | ⟨x5, t5⟩
                          · rw [htk] at h
                            dsimp only [] at h
                            rcases hv1 : hexVal x1 with _ | v1
                            · rw [hv1] at h; simp at h
                            rw [hv1] at h
                            rcases hv2 : hexVal x2 with _ | v2
                            · rw [hv2] at h; simp at h
                            rw [hv2] at h
                            rcases hv3 : hexVal x3 with _ | v3
                            · rw [hv3] at h; simp at h
                            rw [hv3] at h
                            rcases hv4 : hexVal x4 with _ | v4
                            · rw [hv4] at h; simp at h
                            rw [hv4] at h
                            dsimp only [] at h
                            obtain ⟨pre, hpre⟩ := step (cs2.drop 4)
                              (fun l => Char.ofNat (((v1 * 16 + v2) * 16 + v3) * 16 + v4) :: l) h
                            refine ⟨'\\' :: e :: ([x1, x2, x3, x4] ++ pre), ?_⟩
                            have hsplit : cs2 = cs2.take 4 ++ cs2.drop 4 :=
                              (List.take_append_drop 4 cs2).symm
                            rw [hsplit, htk, hpre]
                            rfl
                          · rw [htk] at h; simp at h
                        · rw [if_neg e7] at h
                          simp at h
        · rw [if_neg h2] at h
          by_cases h3 : c.toNat < 32
          · rw [if_pos h3] at h; simp at h
          · rw [if_neg h3] at h
            obtain ⟨pre, hpre⟩ := step cs' (fun l => c :: l) h
            exact ⟨c :: pre, by rw [hpre]; rfl⟩

/-- `skipWs` never introduces characters. -/
theorem not_mem_skipWs (x : Char) (s : List Char) (h : x ∉ s) : x ∉ skipWs s := by
  obtain ⟨p, hp⟩ := skipWs_decomp s
  intro hm
  exact h (by rw [hp]; exact List.mem_append.mpr (Or.inr hm))

/-- On brace-free input, a successful value parse never ends by
consuming a closing brace (and array parses end by consuming `]`):
the consumed part is non-empty and its last character is not `x7d`. -/
theorem parse_last_not_rbrace (fuel : Nat) :
    (∀ s v r, lbrace ∉ s → parseVal fuel s = some (v, r) →
      ∃ pre c, s = pre ++ c :: r ∧ c ≠ rbrace) ∧
    (∀ s v r, lbrace ∉ s → parseArrStart fuel s = some (v, r) →
      ∃ pre, s = pre ++ ']' :: r) ∧
    (∀ acc s v r, lbrace ∉ s → parseArrRest fuel acc s = some (v, r) →
      ∃ pre, s = pre ++ ']' :: r) := by
  induction fuel with
  | zero =>
    refine ⟨?_, ?_, ?_⟩
    · intro s v r _ h; simp [parseVal] at h
    · intro s v r _ h; simp [parseArrStart] at h
    · intro acc s v r _ h; simp [parseArrRest] at h
  | succ f ih =>
    obtain ⟨ihV, ihA, ihR⟩ := ih
    refine ⟨?_, ?_, ?_⟩
    · -- parseVal
      intro s v r hnb h
      rw [parseVal.eq_def] at h
      cases s with
      | nil => simp at h
      | cons c cs =>
        dsimp only [] at h
        by_cases hn : c = 'n'
        · subst hn
          rw [if_pos rfl] at h
          by_cases ht : cs.take 3 = ['u', 'l', 'l']
          · rw [if_pos ht] at h
            obtain ⟨hv, hr⟩ := Prod.mk.injEq .. ▸ (Option.some_inj.mp h)
            refine ⟨['n', 'u', 'l'], 'l', ?_, by decide⟩
            rw [← hr]
            conv_lhs => rw [show cs = cs.take 3 ++ cs.drop 3 from
              (List.take_append_drop 3 cs).symm, ht]
            rfl
          · rw [if_neg ht] at h; simp at h
        · rw [if_neg hn] at h
          by_cases htt : c = 't'
          · subst htt
            rw [if_pos rfl] at h
            by_cases ht : cs.take 3 = ['r', 'u', 'e']
            · rw [if_pos ht] at h
              obtain ⟨hv, hr⟩ := Prod.mk.injEq .. ▸ (Option.some_inj.mp h)
              refine ⟨['t', 'r', 'u'], 'e', ?_, by decide⟩
              rw [← hr]
              conv_lhs => rw [show cs = cs.take 3 ++ cs.drop 3 from
                (List.take_append_drop 3 cs).symm, ht]
              rfl
            · rw [if_neg ht] at h; simp at h
          · rw [if_neg htt] at h
            by_cases hf : c = 'f'
            · subst hf
              rw [if_pos rfl] at h
              by_cases ht : cs.take 4 = ['a', 'l', 's', 'e']
              · rw [if_pos ht] at h
                obtain ⟨hv, hr⟩ := Prod.mk.injEq .. ▸ (Option.some_inj.mp h)
                refine ⟨['f', 'a', 'l', 's'], 'e', ?_, by decide⟩
                rw [← hr]
                conv_lhs => rw [show cs = cs.take 4 ++ cs.drop 4 from
                  (List.take_append_drop 4 cs).symm, ht]
                rfl
              · rw [if_neg ht] at h; simp at h
            · rw [if_neg hf] at h
              by_cases hq : c = '"'
              · subst hq
                rw [if_pos rfl] at h
                rcases Option.map_eq_some'.mp h with ⟨⟨b1, r1⟩, hps, hg⟩
                obtain ⟨hg1, hg2⟩ := Prod.mk.injEq .. ▸ hg
                obtain ⟨pre, hpre⟩ := parseStringBody_consumed f cs b1 r1 hps
                have hg2' : r1 = r := hg2
                refine ⟨'"' :: pre, '"', ?_, by decide⟩
                rw [hpre, hg2']
                simp
              · rw [if_neg hq] at h
                by_cases hb : c = lbrace
                · subst hb
                  exact absurd (List.mem_cons_self lbrace cs) hnb
                · rw [if_neg hb] at h
                  by_cases ha : c = '['
                  · subst ha
                    rw [if_pos rfl] at h
                    have hnb' : lbrace ∉ skipWs cs :=
                      not_mem_skipWs lbrace cs
                        (fun hm => hnb (List.mem_cons_of_mem _ hm))
                    obtain ⟨pre, hpre⟩ := ihA (skipWs cs) v r hnb' h
                    obtain ⟨p0, hp0⟩ := skipWs_decomp cs
                    refine ⟨'[' :: (p0 ++ pre), ']', ?_, by decide⟩
                    rw [show cs = p0 ++ skipWs cs from hp0, hpre]
                    simp
                  · rw [if_neg ha] at h
                    rcases Option.map_eq_some'.mp h with ⟨⟨lit, r1⟩, hps, hg⟩
                    obtain ⟨hg1, hg2⟩ := Prod.mk.injEq .. ▸ hg
                    obtain ⟨hsplit, hlit, hnb2⟩ := parseNumber_spec (c :: cs) lit r1 hps
                    have hlast := List.dropLast_append_getLast hlit
                    have hg2' : r1 = r := hg2
                    refine ⟨lit.dropLast, lit.getLast hlit, ?_,
                      hnb2 _ (List.getLast_mem hlit)⟩
                    rw [hsplit, hg2']
                    conv_lhs => rw [← hlast]
                    simp
    · -- parseArrStart
      intro s v r hnb h
      rw [parseArrStart.eq_def] at h
      cases s with
      | nil => simp at h
      | cons c cs =>
        dsimp only [] at h
        by_cases hc : c = ']'
        · subst hc
          rw [if_pos rfl] at h
          obtain ⟨hv, hr⟩ := Prod.mk.injEq .. ▸ (Option.some_inj.mp h)
          exact ⟨[], by rw [hr]; rfl⟩
        · rw [if_neg hc] at h
          rcases hpv : parseVal f (c :: cs) with _ | ⟨v0, r1⟩
          · rw [hpv] at h; simp at h
          rw [hpv] at h
          dsimp only [] at h
          obtain ⟨pre1, c1, heq1, _⟩ := ihV (c :: cs) v0 r1 hnb hpv
          have hnbr1 : lbrace ∉ r1 := by
            intro hm
            exact hnb (by rw [heq1]; simp [hm])
          have hnbs : lbrace ∉ skipWs r1 := not_mem_skipWs lbrace r1 hnbr1
          obtain ⟨pre2, heq2⟩ := ihR [v0] (skipWs r1) v r hnbs h
          obtain ⟨p0, hp0⟩ := skipWs_decomp r1
          refine ⟨pre1 ++ c1 :: (p0 ++ pre2), ?_⟩
          rw [heq1, show r1 = p0 ++ skipWs r1 from hp0, heq2]
          simp
    · -- parseArrRest
      intro acc s v r hnb h
      rw [parseArrRest.eq_def] at h
      cases s with
      | nil => simp at h
      | cons c cs =>
        dsimp only [] at h
        by_cases hc : c = ']'
        · subst hc
          rw [if_pos rfl] at h
          obtain ⟨hv, hr⟩ := Prod.mk.injEq .. ▸ (Option.some_inj.mp h)
          exact ⟨[], by rw [hr]; rfl⟩
        · rw [if_neg hc] at h
          by_cases hcm : c = ','
          · subst hcm
            rw [if_pos rfl] at h
            have hnbcs : lbrace ∉ cs := fun hm => hnb (List.mem_cons_of_mem _ hm)
            have hnbs : lbrace ∉ skipWs cs := not_mem_skipWs lbrace cs hnbcs
            rcases hpv : parseVal f (skipWs cs) with _ | ⟨v0, r1⟩
            · rw [hpv] at h; simp at h
            rw [hpv] at h
            dsimp only [] at h
            obtain ⟨pre1, c1, heq1, _⟩ := ihV (skipWs cs) v0 r1 hnbs hpv
            have hnbr1 : lbrace ∉ r1 := by
              intro hm
              exact hnbs (by rw [heq1]; simp [hm])
            have hnbsr1 : lbrace ∉ skipWs r1 := not_mem_skipWs lbrace r1 hnbr1
            obtain ⟨pre2, heq2⟩ := ihR (v0 :: acc) (skipWs r1) v r hnbsr1 h
            obtain ⟨p0, hp0⟩ := skipWs_decomp cs
            obtain ⟨p1, hp1⟩ := skipWs_decomp r1
            refine ⟨',' :: (p0 ++ pre1 ++ c1 :: (p1 ++ pre2)), ?_⟩
            rw [show cs = p0 ++ skipWs cs from hp0, heq1,
              show r1 = p1 ++ skipWs r1 from hp1, heq2]
            simp
          · rw [if_neg hcm] at h
            simp at h

/-- A text that contains no opening brace but ends with a closing
brace is never valid JSON: the value parse would have to end exactly at
that closing brace, but on brace-free input no parse consumes a
closing brace last. -/
theorem jsonParse_rbrace_tail_none (t : List Char)
    (hlast : t.getLast? = some rbrace) (hnb : lbrace ∉ t) :
    jsonParse t = none := by
  rcases hv : jsonParse t with _ | v
  · rfl
  exfalso
  rw [jsonParse] at hv
  rcases hpv : parseVal (t.length + 1) (skipWs t) with _ | ⟨v0, r⟩
  · rw [hpv] at hv; simp at hv
  rw [hpv] at hv
  dsimp only [] at hv
  by_cases hr : skipWs r = []
  case neg => rw [if_neg hr] at hv; simp at hv
  have hnbs : lbrace ∉ skipWs t := not_mem_skipWs lbrace t hnb
  obtain ⟨pre, c, heq, hcne⟩ :=
    (parse_last_not_rbrace (t.length + 1)).1 (skipWs t) v0 r hnbs hpv
  obtain ⟨p0, hp0⟩ := skipWs_decomp t
  have ht : t = (p0 ++ pre) ++ c :: r := by
    conv_lhs => rw [hp0, heq]
    simp
  cases hrr : r with
  | nil =>
    have hc : t.getLast? = some c := by
      rw [ht, hrr,
        List.getLast?_append_of_ne_nil _ (by simp : ([c] : List Char) ≠ [])]
      rfl
    rw [hlast] at hc
    exact hcne (Option.some_inj.mp hc).symm
  | cons d ds =>
    have hrne : r ≠ [] := by rw [hrr]; simp
    have hcl : t.getLast? = r.getLast? := by
      rw [ht, show (p0 ++ pre) ++ c :: r = ((p0 ++ pre) ++ [c]) ++ r from by simp]
      exact List.getLast?_append_of_ne_nil _ hrne
    rw [hlast, List.getLast?_eq_getLast r hrne] at hcl
    have hmem : rbrace ∈ r := by
      rw [Option.some_inj.mp hcl]
      exact List.getLast_mem hrne
    have hws := skipWs_nil_all_ws r hr rbrace hmem
    exact absurd hws (by decide)

/-- `parseJSON` fails on every input with no opening brace: the
extracted substring is empty (no closing brace either) or ends at a
closing brace, and neither is valid JSON without an opening brace. -/
theorem parseJSON_none_of_no_lbrace (s : List Char) (h1 : lbrace ∉ s) :
    parseJSON s = none := by
  have hii : jsIndexOf s [lbrace] = -1 := jsIndexOf_single_absent s lbrace h1
  rcases lastMatchAux_cases s [rbrace] s.length with hneg | ⟨j, hjv, hjn, hm⟩
  · have hjj : jsLastIndexOf s [rbrace] = -1 := hneg
    simp only [parseJSON, hii, hjj]
    have hz : jsSubstring s (-1) (-1 + 1) = [] := by
      simp only [jsSubstring]
      have h0 : (0 : Int) ≤ (s.length : Int) := by positivity
      have e1 : min (max (-1 : Int) 0) (s.length : Int) = 0 := by omega
      have e2 : min (max (-1 + 1 : Int) 0) (s.length : Int) = 0 := by omega
      rw [e1, e2]
      simp
    rw [hz]
    rfl
  · have hjj : jsLastIndexOf s [rbrace] = (j : Int) := hjv
    have hjlt : j < s.length := matchesAt_lt_length s [rbrace] j (by decide) hm
    simp only [parseJSON, hii, hjj]
    have hslice : jsSubstring s (-1) ((j : Int) + 1) = s.take (j + 1) := by
      simp only [jsSubstring]
      have h0 : (0 : Int) ≤ (s.length : Int) := by positivity
      have hjc : (j : Int) < (s.length : Int) := by exact_mod_cast hjlt
      have e1 : min (max (-1 : Int) 0) (s.length : Int) = 0 := by omega
      have e2 : min (max ((j : Int) + 1) 0) (s.length : Int) = (j : Int) + 1 := by
        omega
      rw [e1, e2]
      have e3 : min (0 : Int) ((j : Int) + 1) = 0 := by omega
      have e4 : max (0 : Int) ((j : Int) + 1) = (j : Int) + 1 := by omega
      rw [e3, e4]
      have e5 : ((j : Int) + 1).toNat = j + 1 := by omega
      rw [e5]
      simp
    rw [hslice]
    apply jsonParse_rbrace_tail_none
    · have hget : s[j]? = some rbrace := by
        have he : (s.drop j).take 1 = [rbrace] := by simpa [matchesAt] using hm
        rw [← List.head?_drop]
        cases hD : s.drop j with
        | nil => rw [hD] at he; simp at he
        | cons a as =>
          rw [hD] at he
          simp at he
          rw [he]
          rfl
      rw [List.take_succ, hget]
      rw [show (some rbrace).toList = [rbrace] from rfl,
        List.getLast?_append_of_ne_nil _ (by simp : ([rbrace] : List Char) ≠ [])]
      rfl
    · intro hm2
      exact h1 (List.mem_of_mem_take hm2)

/-- C3 (amended): when both braces are present (first `x7b` at `i`,
last `x7d` at `j ≥ i`) and the inclusive substring between them is
valid JSON, `parseJSON` returns exactly that substring's parse; and an
input with no opening brace always fails, whether or not it has a
closing brace.  (Only the converse direction for a missing closing
brace is dropped: an input with `x7b` but no `x7d` may still succeed,
per the counterexample.) -/
theorem claim_c3_amended :
    (∀ (s : List Char) (i j : Nat) (v : Json),
      jsIndexOf s [lbrace] = (i : Int) →
      jsLastIndexOf s [rbrace] = (j : Int) →
      i ≤ j →
      jsonParse ((s.take (j + 1)).drop i) = some v →
      parseJSON s = some v) ∧
    (∀ s : List Char, lbrace ∉ s → parseJSON s = none) := by
  constructor
  · intro s i j v hi hj hij hv
    have hjlt : j < s.length := by
      have hj' : lastMatchAux s [rbrace] s.length = (j : Int) := hj
      rcases lastMatchAux_cases s [rbrace] s.length with hneg | ⟨k, hk, hkn, hm⟩
      · rw [hj'] at hneg; omega
      · rw [hj'] at hk
        have hjk : j = k := by exact_mod_cast hk
        subst hjk
        exact matchesAt_lt_length s [rbrace] j (by decide) hm
    have hsub := jsSubstring_of_le s i (j + 1) (by omega) (by omega)
    simp only [parseJSON, hi, hj]
    have hcast : ((j : Int) + 1) = (((j + 1 : Nat)) : Int) := by push_cast; ring
    rw [hcast, hsub, hv]
  · intro s h1
    exact parseJSON_none_of_no_lbrace s h1

/-- Witness for C3 (amended): both parts at concrete inputs — a text
with commentary around a JSON object parses to that object, and a text
with a closing brace but no opening brace fails. -/
theorem claim_c3_witness :
    parseJSON ("x".toList ++ [lbrace] ++ "\"a\":1".toList ++ [rbrace] ++ " y".toList)
      = some (Json.jobj [("a".toList, Json.jnum "1".toList)]) ∧
    parseJSON ("ab".toList ++ [rbrace]) = none := by
  constructor
  · exact claim_c3_amended.1 _ 1 7 _ (by decide) (by decide) (by omega) rfl
  · exact claim_c3_amended.2 ("ab".toList ++ [rbrace]) (by decide)
